import Mathlib

/-!
# A shallow embedding of `MyVec<T>` (src/vectors/src/lib.rs)

`MyVec<T>` is a growable contiguous container built on raw allocation:
a pointer to a region of `capacity` slots of `MaybeUninit<T>`, of which the
first `len` are initialized.  We model the backing region as a total map
`store : Nat → Option α` where `none` stands for an uninitialized slot, and
record each interaction with the allocator / `ptr::copy_nonoverlapping`
as an `AllocEvent`.  The Rust integers (`usize`) never approach overflow in
any reasoned-about scenario, so they are modelled as `Nat`.
-/

/-- One interaction of `MyVec` with the raw-memory primitives:
`alloc c` is a call to `allocate_raw(c)`; `copy n` is the
`ptr::copy_nonoverlapping` of `n` elements during growth; `dealloc c` is the
`dealloc` of the old region of capacity `c`. -/
inductive AllocEvent where
  | alloc (cap : Nat)
  | copy (count : Nat)
  | dealloc (cap : Nat)
deriving DecidableEq

/-- The state of a `MyVec<T>`: the contents of the backing region
(`none` = uninitialized slot), the slot capacity of the region, and the
number of initialized slots. -/
structure MyVec (α : Type) where
  store : Nat → Option α
  capacity : Nat
  len : Nat

/-- `MyVec::new`: dangling pointer (no region, modelled as an all-uninitialized
map), `capacity = 0`, `len = 0`.  No allocator call is made. -/
def MyVec.new (α : Type) : MyVec α :=
  { store := fun _ => none, capacity := 0, len := 0 }

/-- `MyVec::allocate_raw(cap)`.  It `assert!(cap > 0)` (process abort when the
assertion fails, modelled as `none`), asks the system allocator for a region of
`cap` slots, and aborts via `.expect("allocation failed")` when the allocator
returns null (`allocOk = false`, also `none`).  On success it returns the fresh,
fully uninitialized region. -/
def MyVec.allocate_raw (α : Type) (allocOk : Bool) (cap : Nat) :
    Option (Nat → Option α) :=
  if cap = 0 then none
  else if allocOk then some (fun _ => none)
  else none

/-- The new capacity computed at the top of `MyVec::grow`:
`4` if the current capacity is `0`, else twice the current capacity. -/
def MyVec.new_cap (capacity : Nat) : Nat :=
  if capacity = 0 then 4 else capacity * 2

/-- `MyVec::grow`, with the allocator's success made explicit.  It computes the
new capacity, calls `allocate_raw` (a failure there is a process abort: the
fields of `self` have not been touched at that point, so the abort state is the
entry state, returned as `.error`); on success, when the old capacity was
nonzero it copies the first `len` slots bit-for-bit into the new region and
deallocates the old one, then installs the new region and capacity. -/
def MyVec.grow (v : MyVec α) (allocOk : Bool) :
    Except (MyVec α) (MyVec α × List AllocEvent) :=
  match MyVec.allocate_raw α allocOk (MyVec.new_cap v.capacity) with
  | none => .error v
  | some newStore =>
    if 0 < v.capacity then
      .ok ({ store := fun i => if i < v.len then v.store i else newStore i,
             capacity := MyVec.new_cap v.capacity, len := v.len },
           [.alloc (MyVec.new_cap v.capacity), .copy v.len,
            .dealloc v.capacity])
    else
      .ok ({ store := newStore, capacity := MyVec.new_cap v.capacity,
             len := v.len },
           [.alloc (MyVec.new_cap v.capacity)])

/-- The success path of `MyVec::grow` (the allocator succeeded): exactly
`grow` with `allocOk = true`, see `MyVec.grow_true`. -/
def MyVec.growT (v : MyVec α) : MyVec α × List AllocEvent :=
  if 0 < v.capacity then
    ({ store := fun i => if i < v.len then v.store i else none,
       capacity := MyVec.new_cap v.capacity, len := v.len },
     [.alloc (MyVec.new_cap v.capacity), .copy v.len, .dealloc v.capacity])
  else
    ({ store := fun _ => none, capacity := MyVec.new_cap v.capacity,
       len := v.len },
     [.alloc (MyVec.new_cap v.capacity)])

/-- `MyVec::push_back(new_elem)`: grow when `len >= capacity`, then
`ptr::write` the element into slot `len` and increment `len`.  The returned
list records the allocator interactions of the call. -/
def MyVec.push_back (v : MyVec α) (new_elem : α) : MyVec α × List AllocEvent :=
  let g := if v.capacity ≤ v.len then v.growT else (v, [])
  ({ store := fun i => if i = g.1.len then some new_elem else g.1.store i,
     capacity := g.1.capacity, len := g.1.len + 1 },
   g.2)

/-- `MyVec::get(index)`: `None` when `index >= len`, otherwise the (assumed
initialized) content of slot `index`. -/
def MyVec.get (v : MyVec α) (index : Nat) : Option α :=
  if v.len ≤ index then none else v.store index

/-- `MyVec::get_mut(index)`: same bounds check as `get`; it mutates no field of
`self`, so the post-state (second component) is the entry state. -/
def MyVec.get_mut (v : MyVec α) (index : Nat) : Option α × MyVec α :=
  if v.len ≤ index then (none, v) else (v.store index, v)

/-- `MyVec::is_empty`. -/
def MyVec.is_empty (v : MyVec α) : Bool :=
  v.len == 0

/-- The source declares no `Drop` implementation for `MyVec` (and its fields
`NonNull`, `usize` have trivial drops), so destroying a `MyVec` performs no
allocator interaction and runs no element destructor. -/
def MyVec.dropEvents (_ : MyVec α) : List AllocEvent := []

/-- Number of `dealloc` events in an event trace. -/
def deallocCount (evs : List AllocEvent) : Nat :=
  (evs.filter fun e => match e with | .dealloc _ => true | _ => false).length

/-- Pushing a whole list, left to right, accumulating the allocator trace. -/
def MyVec.push_all (v : MyVec α) : List α → MyVec α × List AllocEvent
  | [] => (v, [])
  | x :: xs =>
    let q := v.push_back x
    let r := q.1.push_all xs
    (r.1, q.2 ++ r.2)

/-- Number of `alloc` events (= growth events) in an event trace. -/
def allocCount (evs : List AllocEvent) : Nat :=
  (evs.filter fun e => match e with | .alloc _ => true | _ => false).length

/-- States reachable through the public API from `MyVec::new` (the only
state-changing public operation is `push_back`; `get_mut` leaves the state
unchanged, see `MyVec.get_mut`). -/
inductive MyVec.Reachable : MyVec α → Prop where
  | new : MyVec.Reachable (MyVec.new α)
  | push_back (v : MyVec α) (x : α) :
      MyVec.Reachable v → MyVec.Reachable (v.push_back x).1

/-- A small concrete state: one `push_back(7)` on a fresh vector. -/
def sampleVec1 : MyVec Nat := ((MyVec.new Nat).push_back 7).1

/-- A concrete state at full capacity: four pushes on a fresh vector
(`len = capacity = 4`). -/
def sampleFull : MyVec Nat := ((MyVec.new Nat).push_all [1, 2, 3, 4]).1

/-- The spec's concrete scenario: the ten `i32` values `1..=10` pushed in
order onto a fresh vector. -/
def myVecTen : MyVec Int :=
  ((MyVec.new Int).push_all [1, 2, 3, 4, 5, 6, 7, 8, 9, 10]).1

/-! ## Basic lemmas about `push_back` and reachable states -/

theorem MyVec.growT_len (v : MyVec α) : v.growT.1.len = v.len := by
  unfold MyVec.growT; split <;> rfl

theorem MyVec.growT_capacity (v : MyVec α) :
    v.growT.1.capacity = MyVec.new_cap v.capacity := by
  unfold MyVec.growT; split <;> rfl

theorem MyVec.growT_store_lt (v : MyVec α) {i : Nat} (hwf : v.len ≤ v.capacity)
    (hi : i < v.len) : v.growT.1.store i = v.store i := by
  have hc : 0 < v.capacity := lt_of_le_of_lt (Nat.zero_le i) (lt_of_lt_of_le hi hwf)
  unfold MyVec.growT
  simp [hc, hi]

theorem MyVec.push_back_len (v : MyVec α) (x : α) :
    (v.push_back x).1.len = v.len + 1 := by
  by_cases h : v.capacity ≤ v.len <;>
    simp [MyVec.push_back, h, MyVec.growT_len]

theorem MyVec.push_back_capacity (v : MyVec α) (x : α) :
    (v.push_back x).1.capacity =
      if v.capacity ≤ v.len then MyVec.new_cap v.capacity else v.capacity := by
  by_cases h : v.capacity ≤ v.len <;>
    simp [MyVec.push_back, h, MyVec.growT_capacity]

theorem MyVec.push_back_store_last (v : MyVec α) (x : α) :
    (v.push_back x).1.store v.len = some x := by
  by_cases h : v.capacity ≤ v.len <;>
    simp [MyVec.push_back, h, MyVec.growT_len]

theorem MyVec.push_back_store_lt (v : MyVec α) (x : α) {i : Nat}
    (hwf : v.len ≤ v.capacity) (hi : i < v.len) :
    (v.push_back x).1.store i = v.store i := by
  have hne : i ≠ v.len := Nat.ne_of_lt hi
  by_cases h : v.capacity ≤ v.len
  · simp [MyVec.push_back, h, MyVec.growT_len, hne,
      MyVec.growT_store_lt v hwf hi]
  · simp [MyVec.push_back, h, hne]

theorem MyVec.push_back_get_last (v : MyVec α) (x : α) :
    (v.push_back x).1.get v.len = some x := by
  have hlen := MyVec.push_back_len v x
  simp [MyVec.get, hlen, MyVec.push_back_store_last v x]

theorem MyVec.push_back_get_lt (v : MyVec α) (x : α) {i : Nat}
    (hwf : v.len ≤ v.capacity) (hi : i < v.len) :
    (v.push_back x).1.get i = v.get i := by
  have hlen := MyVec.push_back_len v x
  have hi1 : i < v.len + 1 := Nat.lt_succ_of_lt hi
  simp [MyVec.get, hlen, Nat.not_le.mpr hi, Nat.not_le.mpr hi1,
    MyVec.push_back_store_lt v x hwf hi]

theorem MyVec.push_back_get_ge (v : MyVec α) (x : α) {i : Nat}
    (hi : v.len + 1 ≤ i) : (v.push_back x).1.get i = none := by
  have hlen := MyVec.push_back_len v x
  simp [MyVec.get, hlen, hi]

theorem MyVec.new_cap_pos (capacity : Nat) : 0 < MyVec.new_cap capacity := by
  unfold MyVec.new_cap
  split
  · norm_num
  · omega

theorem MyVec.push_back_wf (v : MyVec α) (x : α) (hwf : v.len ≤ v.capacity) :
    (v.push_back x).1.len ≤ (v.push_back x).1.capacity := by
  rw [MyVec.push_back_len, MyVec.push_back_capacity]
  by_cases h : v.capacity ≤ v.len
  · have hl : v.len = v.capacity := Nat.le_antisymm hwf h
    simp only [h, if_pos]
    unfold MyVec.new_cap
    split <;> omega
  · simp only [h, if_neg, if_false]
    omega

theorem MyVec.push_back_init (v : MyVec α) (x : α) (hwf : v.len ≤ v.capacity)
    (hinit : ∀ i, i < v.len → (v.store i).isSome) :
    ∀ i, i < (v.push_back x).1.len → ((v.push_back x).1.store i).isSome := by
  intro i hi
  rw [MyVec.push_back_len] at hi
  rcases Nat.lt_succ_iff_lt_or_eq.mp hi with hlt | heq
  · rw [MyVec.push_back_store_lt v x hwf hlt]
    exact hinit i hlt
  · subst heq
    rw [MyVec.push_back_store_last]
    rfl

theorem MyVec.push_back_capshape (v : MyVec α) (x : α)
    (hc : v.capacity = 0 ∨ ∃ j, v.capacity = 4 * 2 ^ j) :
    (v.push_back x).1.capacity = 0 ∨
      ∃ j, (v.push_back x).1.capacity = 4 * 2 ^ j := by
  rw [MyVec.push_back_capacity]
  by_cases h : v.capacity ≤ v.len
  · simp only [h, if_pos]
    rcases hc with h0 | ⟨j, hj⟩
    · right; exact ⟨0, by simp [MyVec.new_cap, h0]⟩
    · right
      refine ⟨j + 1, ?_⟩
      have : v.capacity ≠ 0 := by
        rw [hj]; positivity
      simp [MyVec.new_cap, this, hj]
      ring
  · simpa [h] using hc

theorem MyVec.reachable_inv {v : MyVec α} (h : v.Reachable) :
    v.len ≤ v.capacity ∧ (∀ i, i < v.len → (v.store i).isSome) ∧
      (v.capacity = 0 ∨ ∃ j, v.capacity = 4 * 2 ^ j) := by
  induction h with
  | new => exact ⟨Nat.le_refl 0, fun i hi => absurd hi (Nat.not_lt_zero i), Or.inl rfl⟩
  | push_back w x _ ih =>
    obtain ⟨hwf, hinit, hshape⟩ := ih
    exact ⟨MyVec.push_back_wf w x hwf, MyVec.push_back_init w x hwf hinit,
      MyVec.push_back_capshape w x hshape⟩

theorem MyVec.grow_true (v : MyVec α) : v.grow true = .ok v.growT := by
  unfold MyVec.grow MyVec.growT MyVec.allocate_raw MyVec.new_cap
  rcases Nat.eq_zero_or_pos v.capacity with h | h
  · simp [h]
  · have h2 : ¬ v.capacity * 2 = 0 := by positivity
    simp [Nat.pos_iff_ne_zero.mp h, h, h2]

/-! ## Lemmas about `push_all` (sequences of appends) -/

theorem allocCount_append (a b : List AllocEvent) :
    allocCount (a ++ b) = allocCount a + allocCount b := by
  simp [allocCount, List.filter_append]

theorem MyVec.push_back_events (v : MyVec α) (x : α) :
    (v.push_back x).2 = if v.capacity ≤ v.len then v.growT.2 else [] := by
  by_cases h : v.capacity ≤ v.len <;> simp [MyVec.push_back, h]

theorem MyVec.growT_allocCount (v : MyVec α) : allocCount v.growT.2 = 1 := by
  unfold MyVec.growT
  split <;> simp [allocCount]

theorem MyVec.push_all_len (xs : List α) :
    ∀ v : MyVec α, (v.push_all xs).1.len = v.len + xs.length := by
  induction xs with
  | nil => intro v; rfl
  | cons x xs ih =>
    intro v
    have := ih (v.push_back x).1
    simp only [MyVec.push_all, this, MyVec.push_back_len, List.length_cons]
    omega

theorem MyVec.push_all_wf (xs : List α) :
    ∀ v : MyVec α, v.len ≤ v.capacity →
      (v.push_all xs).1.len ≤ (v.push_all xs).1.capacity := by
  induction xs with
  | nil => intro v hwf; exact hwf
  | cons x xs ih =>
    intro v hwf
    exact ih (v.push_back x).1 (MyVec.push_back_wf v x hwf)

theorem MyVec.push_all_get (xs : List α) :
    ∀ (v : MyVec α), v.len ≤ v.capacity → ∀ i,
      (v.push_all xs).1.get i =
        if i < v.len then v.get i else xs[i - v.len]? := by
  induction xs with
  | nil =>
    intro v _ i
    by_cases hi : i < v.len
    · simp [MyVec.push_all, hi]
    · simp [MyVec.push_all, hi, MyVec.get, Nat.le_of_not_lt hi]
  | cons x xs ih =>
    intro v hwf i
    have hwf1 := MyVec.push_back_wf v x
    have hih := ih (v.push_back x).1 (hwf1 hwf) i
    have hlen := MyVec.push_back_len v x
    simp only [MyVec.push_all] at hih ⊢
    rw [hih, hlen]
    rcases Nat.lt_trichotomy i v.len with hlt | heq | hgt
    · simp [hlt, Nat.lt_succ_of_lt hlt, MyVec.push_back_get_lt v x hwf hlt]
    · subst heq
      simp [Nat.lt_irrefl, Nat.lt_succ_self, MyVec.push_back_get_last v x]
    · have h1 : ¬ i < v.len := Nat.not_lt.mpr (Nat.le_of_lt hgt)
      have h2 : ¬ i < v.len + 1 := Nat.not_lt.mpr hgt
      have h3 : i - v.len = (i - (v.len + 1)) + 1 := by omega
      simp [h1, h2, h3]

theorem MyVec.push_all_cap_inv (xs : List α) :
    ∀ (v : MyVec α) (k : Nat), v.len ≤ v.capacity →
      ((v.capacity = 0 ∧ k = 0) ∨ ∃ j, k = j + 1 ∧ v.capacity = 4 * 2 ^ j) →
      ((v.push_all xs).1.capacity = 0 ∧ k + allocCount (v.push_all xs).2 = 0) ∨
        ∃ j, k + allocCount (v.push_all xs).2 = j + 1 ∧
          (v.push_all xs).1.capacity = 4 * 2 ^ j := by
  induction xs with
  | nil =>
    intro v k _ hshape
    simpa [MyVec.push_all, allocCount] using hshape
  | cons x xs ih =>
    intro v k hwf hshape
    have hwf1 := MyVec.push_back_wf v x hwf
    have hstep : ((v.push_back x).1.capacity = 0 ∧
        k + allocCount (v.push_back x).2 = 0) ∨
        ∃ j, k + allocCount (v.push_back x).2 = j + 1 ∧
          (v.push_back x).1.capacity = 4 * 2 ^ j := by
      rw [MyVec.push_back_events, MyVec.push_back_capacity]
      by_cases h : v.capacity ≤ v.len
      · simp only [h, if_pos, MyVec.growT_allocCount]
        rcases hshape with ⟨h0, hk⟩ | ⟨j, hk, hc⟩
        · exact Or.inr ⟨0, by omega, by simp [MyVec.new_cap, h0]⟩
        · refine Or.inr ⟨j + 1, by omega, ?_⟩
          have hne : v.capacity ≠ 0 := by rw [hc]; positivity
          simp [MyVec.new_cap, hne, hc]
          ring
      · simpa [h, allocCount] using hshape
    have := ih (v.push_back x).1 (k + allocCount (v.push_back x).2) hwf1 hstep
    simp only [MyVec.push_all, allocCount_append] at this ⊢
    convert this using 3 <;> omega

theorem MyVec.get_mut_state (v : MyVec α) (i : Nat) : (v.get_mut i).2 = v := by
  unfold MyVec.get_mut
  split <;> rfl

theorem MyVec.get_mut_fst (v : MyVec α) (i : Nat) : (v.get_mut i).1 = v.get i := by
  unfold MyVec.get_mut MyVec.get
  split <;> rfl

/-! ## The claims -/

/-- C1: for every (reachable) container state and value `x`, `push_back x`
increases `len` by exactly 1, slot `old-len` is retrievable via `get` and
equals `x`, every previously inserted value is still at its index, and no
index past the new end holds anything (no loss, no duplication). -/
theorem claim_C1 {α : Type} (v : MyVec α) (x : α) (h : v.Reachable) :
    (v.push_back x).1.len = v.len + 1 ∧
    (v.push_back x).1.get v.len = some x ∧
    (∀ i, i < v.len → (v.push_back x).1.get i = v.get i) ∧
    (∀ i, v.len + 1 ≤ i → (v.push_back x).1.get i = none) := by
  obtain ⟨hwf, -, -⟩ := MyVec.reachable_inv h
  exact ⟨MyVec.push_back_len v x, MyVec.push_back_get_last v x,
    fun i hi => MyVec.push_back_get_lt v x hwf hi,
    fun i hi => MyVec.push_back_get_ge v x hi⟩

theorem claim_C1_witness :
    ((MyVec.new Nat).push_back 5).1.len = 1 ∧
    ((MyVec.new Nat).push_back 5).1.get 0 = some 5 ∧
    ((MyVec.new Nat).push_back 5).1.get 1 = none := by
  have h := claim_C1 (MyVec.new Nat) 5 MyVec.Reachable.new
  exact ⟨h.1, h.2.1, h.2.2.2 1 (by decide)⟩

/-- C2: on every reachable state, `get i` is present iff `i < len`;
`get_mut i` has the identical present-iff-in-range contract and leaves the
whole state (in particular `len` and `capacity`) unchanged. -/
theorem claim_C2 {α : Type} (v : MyVec α) (h : v.Reachable) (i : Nat) :
    ((v.get i).isSome ↔ i < v.len) ∧
    ((v.get_mut i).1.isSome ↔ i < v.len) ∧
    (v.len ≤ i → v.get i = none ∧ (v.get_mut i).1 = none) ∧
    (v.get_mut i).2.len = v.len ∧
    (v.get_mut i).2.capacity = v.capacity := by
  obtain ⟨-, hinit, -⟩ := MyVec.reachable_inv h
  have hget : (v.get i).isSome ↔ i < v.len := by
    by_cases hi : i < v.len
    · simp [MyVec.get, Nat.not_le.mpr hi, hinit i hi, hi]
    · simp [MyVec.get, Nat.le_of_not_lt hi, hi]
  refine ⟨hget, by rw [MyVec.get_mut_fst]; exact hget, ?_, ?_, ?_⟩
  · intro hle
    constructor
    · simp [MyVec.get, hle]
    · rw [MyVec.get_mut_fst]; simp [MyVec.get, hle]
  · rw [MyVec.get_mut_state]
  · rw [MyVec.get_mut_state]

theorem claim_C2_witness :
    ((sampleVec1.get 0).isSome ↔ 0 < sampleVec1.len) ∧
    ((sampleVec1.get_mut 0).1.isSome ↔ 0 < sampleVec1.len) ∧
    (sampleVec1.len ≤ 0 → sampleVec1.get 0 = none ∧ (sampleVec1.get_mut 0).1 = none) ∧
    (sampleVec1.get_mut 0).2.len = sampleVec1.len ∧
    (sampleVec1.get_mut 0).2.capacity = sampleVec1.capacity :=
  claim_C2 sampleVec1 (MyVec.Reachable.push_back (MyVec.new Nat) 7 MyVec.Reachable.new) 0

/-- C3: when `len = capacity` (so the append triggers growth), every value
observable below the old length is unchanged by the append; only the new
slot, the length and the capacity change. -/
theorem claim_C3 {α : Type} (v : MyVec α) (x : α) (h : v.len = v.capacity) :
    (∀ i, i < v.len → (v.push_back x).1.get i = v.get i) ∧
    (v.push_back x).1.get v.len = some x ∧
    (v.push_back x).1.len = v.len + 1 ∧
    (v.push_back x).1.capacity = MyVec.new_cap v.capacity := by
  have hwf : v.len ≤ v.capacity := le_of_eq h
  refine ⟨fun i hi => MyVec.push_back_get_lt v x hwf hi,
    MyVec.push_back_get_last v x, MyVec.push_back_len v x, ?_⟩
  rw [MyVec.push_back_capacity, if_pos (le_of_eq h.symm)]

theorem claim_C3_witness :
    (sampleFull.push_back 9).1.get 2 = sampleFull.get 2 ∧
    (sampleFull.push_back 9).1.get 4 = some 9 ∧
    (sampleFull.push_back 9).1.len = 5 ∧
    (sampleFull.push_back 9).1.capacity = MyVec.new_cap sampleFull.capacity := by
  have h := claim_C3 sampleFull 9 (by decide)
  exact ⟨h.1 2 (by decide), h.2.1, h.2.2.1, h.2.2.2⟩

/-- C4: the new capacity computed by growth is 4 when the current capacity is
0 and exactly twice the current capacity otherwise; growing from capacity 0
performs no element copy, only the single allocation of capacity 4. -/
theorem claim_C4 {α : Type} (v : MyVec α) :
    MyVec.new_cap 0 = 4 ∧
    (∀ c, c ≠ 0 → MyVec.new_cap c = c * 2) ∧
    (v.capacity = 0 →
      v.growT.2 = [AllocEvent.alloc 4] ∧ v.growT.1.capacity = 4) := by
  refine ⟨rfl, fun c hc => by simp [MyVec.new_cap, hc], fun h0 => ?_⟩
  unfold MyVec.growT
  simp [h0, MyVec.new_cap]

theorem claim_C4_witness :
    MyVec.new_cap 0 = 4 ∧ MyVec.new_cap 6 = 12 ∧
    (MyVec.new Nat).growT.2 = [AllocEvent.alloc 4] ∧
    (MyVec.new Nat).growT.1.capacity = 4 := by
  have h := claim_C4 (MyVec.new Nat)
  exact ⟨h.1, h.2.1 6 (by decide), (h.2.2 rfl).1, (h.2.2 rfl).2⟩

/-- C5: in every state reached from a fresh vector by pushes, the capacity
after the k-th growth event (= k-th allocator call) is 4·2^(k-1), the
capacity is always 0 or a power-of-two multiple of 4, and capacity ≥ length
always holds. -/
theorem claim_C5 (xs : List Nat) :
    (allocCount ((MyVec.new Nat).push_all xs).2 = 0 →
      ((MyVec.new Nat).push_all xs).1.capacity = 0) ∧
    (1 ≤ allocCount ((MyVec.new Nat).push_all xs).2 →
      ((MyVec.new Nat).push_all xs).1.capacity =
        4 * 2 ^ (allocCount ((MyVec.new Nat).push_all xs).2 - 1)) ∧
    (((MyVec.new Nat).push_all xs).1.capacity = 0 ∨
      ∃ j, ((MyVec.new Nat).push_all xs).1.capacity = 4 * 2 ^ j) ∧
    ((MyVec.new Nat).push_all xs).1.len ≤ ((MyVec.new Nat).push_all xs).1.capacity := by
  have hinv := MyVec.push_all_cap_inv xs (MyVec.new Nat) 0 (Nat.le_refl 0)
    (Or.inl ⟨rfl, rfl⟩)
  have hwf := MyVec.push_all_wf xs (MyVec.new Nat) (Nat.le_refl 0)
  refine ⟨?_, ?_, ?_, hwf⟩
  · intro h0
    rcases hinv with ⟨hc, -⟩ | ⟨j, hk, -⟩
    · exact hc
    · omega
  · intro h1
    rcases hinv with ⟨-, hk⟩ | ⟨j, hk, hc⟩
    · omega
    · have : allocCount ((MyVec.new Nat).push_all xs).2 - 1 = j := by omega
      rw [this]
      exact hc
  · rcases hinv with ⟨hc, -⟩ | ⟨j, -, hc⟩
    · exact Or.inl hc
    · exact Or.inr ⟨j, hc⟩

theorem claim_C5_witness :
    1 ≤ allocCount ((MyVec.new Nat).push_all [1, 2, 3, 4, 5]).2 ∧
    ((MyVec.new Nat).push_all [1, 2, 3, 4, 5]).1.capacity =
      4 * 2 ^ (allocCount ((MyVec.new Nat).push_all [1, 2, 3, 4, 5]).2 - 1) ∧
    ((MyVec.new Nat).push_all [1, 2, 3, 4, 5]).1.len ≤
      ((MyVec.new Nat).push_all [1, 2, 3, 4, 5]).1.capacity :=
  ⟨by decide, (claim_C5 [1, 2, 3, 4, 5]).2.1 (by decide),
    (claim_C5 [1, 2, 3, 4, 5]).2.2.2⟩

/-- C6: after appending any list to a fresh vector, the length equals the
list's length and `get i` reproduces the list entry at `i` (its values in
insertion order, exactly once each, `none` past the end); in particular for
the values 1..=10: capacity ≥ 10, length 10, `get i = some (i+1)` for
`i < 10` and `get 10 = none`. -/
theorem claim_C6 :
    (∀ (xs : List Int) (i : Nat),
      ((MyVec.new Int).push_all xs).1.len = xs.length ∧
      ((MyVec.new Int).push_all xs).1.get i = xs[i]?) ∧
    (10 ≤ myVecTen.capacity ∧ myVecTen.len = 10 ∧
      myVecTen.get 0 = some 1 ∧ myVecTen.get 1 = some 2 ∧
      myVecTen.get 2 = some 3 ∧ myVecTen.get 3 = some 4 ∧
      myVecTen.get 4 = some 5 ∧ myVecTen.get 5 = some 6 ∧
      myVecTen.get 6 = some 7 ∧ myVecTen.get 7 = some 8 ∧
      myVecTen.get 8 = some 9 ∧ myVecTen.get 9 = some 10 ∧
      myVecTen.get 10 = none) := by
  constructor
  · intro xs i
    constructor
    · rw [MyVec.push_all_len]
      simp [MyVec.new]
    · have h := MyVec.push_all_get xs (MyVec.new Int) (Nat.le_refl 0) i
      simpa [MyVec.new] using h
  · exact ⟨by decide, by decide, by decide, by decide, by decide, by decide,
      by decide, by decide, by decide, by decide, by decide, by decide, by decide⟩

/-- C7: `new` produces `len = 0`, `capacity = 0` (so, by the representation
invariant, no backing allocation), `is_empty = true`, and `get 0 = none`. -/
theorem claim_C7 (α : Type) :
    (MyVec.new α).len = 0 ∧ (MyVec.new α).capacity = 0 ∧
    (MyVec.new α).is_empty = true ∧ (MyVec.new α).get 0 = none :=
  ⟨rfl, rfl, rfl, rfl⟩

/-- C8: when the allocation inside `grow` fails, the abort happens before any
field of the container is touched, so the state observable at the fatal
failure is exactly the entry state: same storage contents, capacity and
length (strong exception safety of the growth step). -/
theorem claim_C8 {α : Type} (v : MyVec α) :
    v.grow false = Except.error v := by
  unfold MyVec.grow MyVec.allocate_raw
  have h := MyVec.new_cap_pos v.capacity
  simp [Nat.pos_iff_ne_zero.mp h]

/-- C9 (failing input): the source defines no `Drop` implementation, so
destroying a vector that owns a 4-slot region holding one element releases
the region 0 times (it is leaked) and runs no element destructor — not the
exactly-once release/destruction the claim requires. -/
theorem claim_C9_code :
    sampleVec1.capacity = 4 ∧ sampleVec1.len = 1 ∧
    sampleVec1.dropEvents = [] ∧ deallocCount sampleVec1.dropEvents = 0 := by
  exact ⟨by decide, by decide, rfl, rfl⟩

/-- C10: on every reachable state, each allocator request issued by
`push_back` (via `grow`/`allocate_raw`) asks for at least 4 slots, so the
`assert!(cap > 0)` in `allocate_raw` never fires and the call succeeds. -/
theorem claim_C10 {α : Type} (v : MyVec α) (h : v.Reachable) (x : α) (c : Nat)
    (hmem : AllocEvent.alloc c ∈ (v.push_back x).2) :
    4 ≤ c ∧ (MyVec.allocate_raw α true c).isSome := by
  obtain ⟨-, -, hshape⟩ := MyVec.reachable_inv h
  rw [MyVec.push_back_events] at hmem
  by_cases hfull : v.capacity ≤ v.len
  · rw [if_pos hfull] at hmem
    unfold MyVec.growT at hmem
    have hc : c = MyVec.new_cap v.capacity := by
      split at hmem <;> simpa using hmem
    subst hc
    have h4 : 4 ≤ MyVec.new_cap v.capacity := by
      rcases hshape with h0 | ⟨j, hj⟩
      · simp [MyVec.new_cap, h0]
      · have hne : v.capacity ≠ 0 := by rw [hj]; positivity
        have h2 : 1 ≤ 2 ^ j := Nat.one_le_two_pow
        have hval : MyVec.new_cap v.capacity = v.capacity * 2 := by
          simp [MyVec.new_cap, hne]
        rw [hval, hj]
        nlinarith
    refine ⟨h4, ?_⟩
    have hne : MyVec.new_cap v.capacity ≠ 0 := by omega
    simp [MyVec.allocate_raw, hne]
  · rw [if_neg hfull] at hmem
    exact absurd hmem (List.not_mem_nil _)

theorem claim_C10_witness :
    AllocEvent.alloc 4 ∈ ((MyVec.new Nat).push_back 1).2 ∧
    4 ≤ 4 ∧ (MyVec.allocate_raw Nat true 4).isSome :=
  ⟨by decide,
    claim_C10 (MyVec.new Nat) MyVec.Reachable.new 1 4 (by decide)⟩
